import Mathlib

/-!
Shallow embedding of the `rskill` directory-cleanup tool (Rust sources:
`src/main.rs`, `src/fs.rs`, `src/cli.rs`, `src/tui.rs`) and proofs about it.

Paths are modelled as lists of characters (the program works on the lossy
UTF-8 textual form of every path: `to_string_lossy`). Filesystem behaviour
(directory children, metadata, removal outcomes) is modelled by explicit
oracle parameters, since the program only observes it through those calls.
-/

namespace RSkill

/-- Paths in their textual form, as the Rust code manipulates them. -/
abbrev PathT := List Char

/-! ### String helpers mirroring the Rust `str` primitives used by the code -/

/-- Rust `str::split(sep)` on a single-character separator:
`"".split(c)` yields `[""]`, `"/".split('/')` yields `["", ""]`. -/
def splitOnChar (sep : Char) : List Char → List (List Char)
  | [] => [[]]
  | c :: cs =>
    let rest := splitOnChar sep cs
    if c == sep then [] :: rest
    else
      match rest with
      | r :: rs => (c :: r) :: rs
      | [] => [[c]]

/-- Rust `str::contains(sub)`: some contiguous run of `s` equals `sub`. -/
def containsSub (s sub : List Char) : Bool :=
  (List.range (s.length + 1)).any fun i => sub.isPrefixOf (s.drop i)

/-- Rust `str::starts_with('.')` on a path segment. -/
def startsWithDot : List Char → Bool
  | '.' :: _ => true
  | _ => false

/-! ### `fs.rs`: `is_dangerous` (the spec's `isSensitive`) -/

/-- `fs.rs::is_dangerous`: a segment (splitting the textual path on both `/`
and `\`) starts with `.` and is not `.`/`..`; or the path contains `.app/` or
ends with `.app`; or it contains `\AppData\`. -/
def is_dangerous (path : PathT) : Bool :=
  let is_hidden := (splitOnChar '/' path ++ splitOnChar '\\' path).any
    fun part => startsWithDot part && part != ['.'] && part != ['.', '.']
  let is_mac_app := containsSub path ['.', 'a', 'p', 'p', '/']
      || (['.', 'a', 'p', 'p'] : List Char).isSuffixOf path
  let is_windows_app_data := containsSub path ['\\', 'A', 'p', 'p', 'D', 'a', 't', 'a', '\\']
  is_hidden || is_mac_app || is_windows_app_data

/-! ### `fs.rs`: `is_nested_module` -/

/-- Fuel-indexed helper for `countMatches`. Each step either consumes one
character or skips a whole (non-empty) match, so `s.length` fuel always
suffices; the explicit fuel keeps the recursion structural. -/
def countMatchesFuel : Nat → List Char → List Char → Nat
  | _, s, [] => s.length + 1
  | 0, _, _ :: _ => 0
  | fuel + 1, s, th :: tt =>
    match s with
    | [] => 0
    | c :: rest =>
      if (th :: tt).isPrefixOf (c :: rest) then
        1 + countMatchesFuel fuel ((c :: rest).drop (th :: tt).length) (th :: tt)
      else countMatchesFuel fuel rest (th :: tt)

/-- Rust `str::matches(pat).count()`: the number of non-overlapping,
leftmost-first occurrences of `t` in `s`. An empty pattern matches at every
character boundary (`s.length + 1` matches), as in Rust. -/
def countMatches (s t : List Char) : Nat :=
  countMatchesFuel s.length s t

/-- The number of starting positions at which `t` occurs as a substring of
`s` (occurrences may overlap): one position per suffix of `s` that `t` is a
prefix of. This is the plain "how many times does the path contain the
target" count the spec speaks of. -/
def countOccurrences : List Char → List Char → Nat
  | [], t => if t.isPrefixOf [] then 1 else 0
  | c :: rest, t =>
    (if t.isPrefixOf (c :: rest) then 1 else 0) + countOccurrences rest t

/-- `fs.rs::is_nested_module`: the target name matches more than once in the
path's textual form. -/
def is_nested_module (path : PathT) (target : List Char) : Bool :=
  countMatches path target > 1

/-! ### `fs.rs`: `get_dir_details` (the spec's MetadataProbe)

`fs_extra::dir::get_details_entry` is an external filesystem call; it is
modelled as an oracle `details : PathT → Option AttrMap` (`none` = the call
returned `Err`), and `Path::parent` as an oracle `parentOf`. Time is an
explicit `now : Int` (seconds of the current instant). -/

/-- `fs_extra::dir::DirEntryValue` (the variants the code inspects). -/
inductive DirEntryValue where
  | u64 (n : Nat)
  | systemTime (t : Int)
  | other
  deriving DecidableEq

/-- The attribute map returned by `get_details_entry` for the requested
config `{Size, Modified}`: the result of `get(&Size)` and `get(&Modified)`. -/
structure AttrMap where
  size : Option DirEntryValue
  modified : Option DirEntryValue
  deriving DecidableEq

/-- `fs.rs::get_dir_details`: needs a parent, a successful details fetch for
the path, a successful details fetch for the parent, and the parent's
`Modified` attribute as a `SystemTime`; otherwise `none`. -/
def get_dir_details (parentOf : PathT → Option PathT)
    (details : PathT → Option AttrMap) (path : PathT) :
    Option (AttrMap × Int) :=
  match parentOf path with
  | none => none
  | some parent =>
    match details path with
    | none => none
    | some node_details =>
      match details parent with
      | none => none
      | some parent_details =>
        match parent_details.modified with
        | some (DirEntryValue.systemTime t) => some (node_details, t)
        | _ => none

/-! ### `cli.rs`: sort key, arguments, `NodeModule` -/

/-- `cli.rs::SortBy`. -/
inductive SortBy where
  | size
  | path
  | lastMod
  deriving DecidableEq

/-- `cli.rs::Args` (the parsed CLI configuration). -/
structure Args where
  directory : PathT
  exclude_hidden : Bool
  target : List Char
  full : Bool
  in_gb : Bool
  exclude_paths : Option (List Char)
  sort : Option SortBy
  delete_all : Bool
  deriving DecidableEq

/-- `cli.rs::NodeModule` (the spec's DiscoveredEntry). `modified` stores the
signed number of seconds elapsed since the parent's modification time. -/
structure NodeModule where
  path : PathT
  size : Nat
  modified : Int
  deleted : Bool
  is_dangerous : Bool
  deriving DecidableEq

/-- `cli.rs::NodeModule::new`: on a `none` probe result, degrade to size `0`
and modification instant `now`; the stored age is `now` minus the chosen
modification instant. -/
def NodeModule.new (now : Int) (path : PathT)
    (details : Option (AttrMap × Int)) : NodeModule :=
  let sm : Nat × Int :=
    match details with
    | some (attrs, parent_modified) =>
      let size : Nat :=
        match attrs.size with
        | some (DirEntryValue.u64 n) => n
        | _ => 0
      (size, parent_modified)
    | none => (0, now)
  { path := path
    size := sm.1
    modified := now - sm.2
    deleted := false
    is_dangerous := RSkill.is_dangerous path }

/-! ### `fs.rs`: `scan_directory` over a directory-tree model

The on-disk directory hierarchy reachable without following links is a
finite rose tree of named nodes. `WalkDir::new(root).filter_entry(pred)`
yields the root and then descendants, applying `pred` to every yielded
entry (the root included) and pruning the whole subtree of an entry on
which `pred` is false. -/

/-- A directory subtree: a name and the subtrees of its children. -/
inductive FsTree where
  | node (name : List Char) (children : List FsTree)

/-- The name at the root of a subtree. -/
def FsTree.name : FsTree → List Char
  | .node n _ => n

/-- The children of the root of a subtree. -/
def FsTree.children : FsTree → List FsTree
  | .node _ c => c

/-- The full path of a child named `n` of a directory at `parent`. -/
def childPath (parent : PathT) (n : List Char) : PathT :=
  parent ++ '/' :: n

mutual

/-- `WalkDir` + `filter_entry pred`: the (path, file-name) pairs yielded for
the subtree `t` whose root directory has full path `selfPath`: the root is
yielded and descended into only when `pred` accepts it. -/
def walkTree (pred : PathT → List Char → Bool) (selfPath : PathT) :
    FsTree → List (PathT × List Char)
  | .node name children =>
    if pred selfPath name then
      (selfPath, name) :: walkForest pred selfPath children
    else []

/-- The entries yielded for the children of a directory at `parentPath`. -/
def walkForest (pred : PathT → List Char → Bool) (parentPath : PathT) :
    List FsTree → List (PathT × List Char)
  | [] => []
  | t :: ts =>
    walkTree pred (childPath parentPath t.name) t ++ walkForest pred parentPath ts

end

/-- The exclusion substrings: `exclude_paths.split(",")` when the option is
present, the empty list otherwise (`fs.rs::scan_directory`, lines 59-64). -/
def excludedPathsOf (args : Args) : List (List Char) :=
  match args.exclude_paths with
  | some s => splitOnChar ',' s
  | none => []

/-- The `filter_entry` predicate of `fs.rs::scan_directory` (lines 69-82). -/
def scanPred (args : Args) (excluded : List (List Char))
    (path : PathT) (name : List Char) : Bool :=
  let is_target := name == args.target
  let is_excluded := excluded.any fun e => containsSub path e
  if is_target then !is_nested_module path args.target && !is_excluded
  else (!args.exclude_hidden || !is_dangerous path) && !is_excluded

/-- `fs.rs::scan_directory` up to the match filter: the walked entries whose
file name equals the target (lines 66-85). `rootPath` is the canonical root
path and `t` the directory tree below it. -/
def scanEntries (args : Args) (rootPath : PathT) (t : FsTree) :
    List (PathT × List Char) :=
  (walkTree (scanPred args (excludedPathsOf args)) rootPath t).filter
    fun e => e.2 == args.target

/-- `fs.rs::scan_directory`, full: probe every match and build its
`NodeModule` (lines 87-94); the probe result never excludes a match. -/
def scanModules (now : Int) (parentOf : PathT → Option PathT)
    (details : PathT → Option AttrMap) (args : Args) (rootPath : PathT)
    (t : FsTree) : List NodeModule :=
  (scanEntries args rootPath t).map fun e =>
    NodeModule.new now e.1 (get_dir_details parentOf details e.1)

/-! ### `main.rs`: choice of start directory and fan-out of scan passes -/

/-- `main.rs` lines 24-28: in full mode the start directory is the home
directory; otherwise the canonicalized `--directory` argument. -/
def startDir (args : Args) (home canonicalDir : PathT) : PathT :=
  if args.full then home else canonicalDir

/-- `main.rs` lines 37-46: one `scan_directory` pass is spawned per
immediate child of the start directory; each pass is rooted at that child.
The start directory's subtree is `startTree`, its full path `startPath`. -/
def discoveryPassRoots (startPath : PathT) (startTree : FsTree) :
    List (PathT × FsTree) :=
  startTree.children.map fun c => (childPath startPath c.name, c)

/-! ### `cli.rs`: the interactive session (`App`, `on_key`)

A dispatched removal (`tokio::spawn(tokio::fs::remove_dir_all(path))`) is
fire-and-forget: the program never reads its result. The filesystem's
behaviour is an oracle `fsOk : PathT → Bool` (does the removal succeed);
each dispatch is logged together with that external outcome, which the
session state never consumes. -/

/-- One dispatched asynchronous removal and its (ignored) outcome. -/
structure Dispatch where
  path : PathT
  result : Bool
  deriving DecidableEq

/-- The key codes the program distinguishes (`crossterm::event::KeyCode`). -/
inductive KeyCode where
  | up
  | down
  | char (c : Char)
  | other
  deriving DecidableEq

/-- `cli.rs::App`: the session state. `scan_time` is the frozen scan
duration (milliseconds); `total_deleted` the reclaimed-byte counter. -/
structure App where
  modules : List NodeModule
  scroll : Nat
  scan_time : Nat
  total_deleted : Nat
  deriving DecidableEq

/-- `cli.rs::App::new`. -/
def App.new (modules : List NodeModule) (scan_time : Nat) : App :=
  { modules := modules, scroll := 0, scan_time := scan_time, total_deleted := 0 }

/-- `cli.rs::App::on_key` (lines 79-99): clamped cursor moves; space marks
the entry at the cursor deleted (skipping an already-deleted entry), adds
its size to the counter and dispatches a removal whose outcome is never
read back. Returns the new state and the dispatches made. -/
def App.on_key (fsOk : PathT → Bool) (key : KeyCode) (app : App) :
    App × List Dispatch :=
  match key with
  | .up =>
    if app.scroll > 0 then ({ app with scroll := app.scroll - 1 }, []) else (app, [])
  | .down =>
    if app.scroll < app.modules.length - 1 then
      ({ app with scroll := app.scroll + 1 }, [])
    else (app, [])
  | .char c =>
    if c == ' ' then
      match app.modules[app.scroll]? with
      | none => (app, [])
      | some m =>
        if m.deleted then (app, [])
        else
          ({ app with
              modules := app.modules.set app.scroll { m with deleted := true }
              total_deleted := app.total_deleted + m.size },
            [⟨m.path, fsOk m.path⟩])
    else (app, [])
  | .other => (app, [])

/-- A sequence of input events fed to `on_key`, with the dispatch log. -/
def runKeys (fsOk : PathT → Bool) : List KeyCode → App → App × List Dispatch
  | [], app => (app, [])
  | k :: ks, app =>
    let s1 := App.on_key fsOk k app
    let s2 := runKeys fsOk ks s1.1
    (s2.1, s1.2 ++ s2.2)

/-! ### `tui.rs`: bulk-delete dispatch during rendering, confirmation -/

/-- Modelled from the spec: `NodeModule::delete`, invoked at `tui.rs` line
101 but not present in the given sources. Per §4.5/§6 it marks the entry
deleted and dispatches an asynchronous, fire-and-forget recursive removal
of the directory tree whose result is discarded. -/
def NodeModule.delete (fsOk : PathT → Bool) (m : NodeModule) :
    NodeModule × Dispatch :=
  ({ m with deleted := true }, ⟨m.path, fsOk m.path⟩)

/-- One render pass over the entry list (`tui.rs` lines 96-119): with the
bulk-delete flag set, every entry whose deleted flag is still false is
deleted and its size added to the reclaimed counter; already-deleted
entries are skipped. Returns the updated list, counter and dispatches. -/
def renderPass (fsOk : PathT → Bool) (delete_all : Bool) :
    List NodeModule → Nat → List NodeModule × Nat × List Dispatch
  | [], total => ([], total, [])
  | m :: ms, total =>
    if delete_all && !m.deleted then
      let md := m.delete fsOk
      let rest := renderPass fsOk delete_all ms (total + m.size)
      (md.1 :: rest.1, rest.2.1, md.2 :: rest.2.2)
    else
      let rest := renderPass fsOk delete_all ms total
      (m :: rest.1, rest.2.1, rest.2.2)

/-- `tui.rs::run_tui` (lines 63-138): each loop iteration draws a frame
(running the bulk-delete render logic) and then blocks on one input event;
`q` leaves the loop, anything else goes to `on_key`. -/
def run_tui (fsOk : PathT → Bool) (delete_all : Bool) :
    List KeyCode → App → App × List Dispatch
  | [], app =>
    let r := renderPass fsOk delete_all app.modules app.total_deleted
    ({ app with modules := r.1, total_deleted := r.2.1 }, r.2.2)
  | k :: ks, app =>
    let r := renderPass fsOk delete_all app.modules app.total_deleted
    let app1 := { app with modules := r.1, total_deleted := r.2.1 }
    if k == .char 'q' then (app1, r.2.2)
    else
      let s2 := App.on_key fsOk k app1
      let s3 := run_tui fsOk delete_all ks s2.1
      (s3.1, r.2.2 ++ s2.2 ++ s3.2)

/-- `tui.rs::confirm_delete_all` (lines 168-206): reads one key; `y`
confirms, any other key declines. -/
def confirm_delete_all (key : KeyCode) : Bool :=
  key == .char 'y'

/-! ### `main.rs`: optional sort and overall control flow -/

/-- Insertion of `m` into `l` under the order "`le a b`: `a` may precede
`b`". -/
def insertBy (le : NodeModule → NodeModule → Bool) (m : NodeModule) :
    List NodeModule → List NodeModule
  | [] => [m]
  | x :: xs => if le m x then m :: x :: xs else x :: insertBy le m xs

/-- `Vec::sort_unstable_by` with comparator `le`: a permutation of the
input ordered so that `le` holds between adjacent elements (the comparator
fully determines the multiset-level result; equal-element order, which
`sort_unstable_by` leaves unspecified, is fixed by insertion). -/
def sortBy (le : NodeModule → NodeModule → Bool)
    (l : List NodeModule) : List NodeModule :=
  l.foldr (insertBy le) []

/-- The `last-mod` comparator of `main.rs` line 80:
`|a, b| b.modified.cmp(&a.modified)`, so `a` precedes `b` when
`b.modified ≤ a.modified`. -/
def lastModLe (a b : NodeModule) : Bool :=
  b.modified ≤ a.modified

/-- The `size` comparator of `main.rs` lines 71-75: descending size. -/
def sizeLe (a b : NodeModule) : Bool :=
  b.size ≤ a.size

/-- Lexicographic `≤` on textual paths (`str::partial_cmp`). -/
def lexLe : List Char → List Char → Bool
  | [], _ => true
  | _ :: _, [] => false
  | a :: as, b :: bs => if a < b then true else if b < a then false else lexLe as bs

/-- The `path` comparator of `main.rs` lines 61-66: ascending textual
path. -/
def pathLe (a b : NodeModule) : Bool :=
  lexLe a.path b.path

/-- `main.rs` lines 57-85: the optional post-scan sort. -/
def applySort (sort : Option SortBy) (l : List NodeModule) : List NodeModule :=
  match sort with
  | some .path => sortBy pathLe l
  | some .size => sortBy sizeLe l
  | some .lastMod => sortBy lastModLe l
  | none => l

/-- The observable outcome of one program run. -/
structure MainResult where
  scanEntered : Bool
  modulesAfter : List NodeModule
  dispatches : List Dispatch
  exitOk : Bool
  deriving DecidableEq

/-- `main.rs::main`: with the bulk-delete flag, a declined confirmation
returns immediately (lines 15-20); otherwise one scan pass per immediate
child of the start directory, merge, optional sort, and the interactive
loop. -/
def mainFlow (args : Args) (confirmKey : KeyCode) (home canonicalDir : PathT)
    (startTree : FsTree) (now : Int) (parentOf : PathT → Option PathT)
    (details : PathT → Option AttrMap) (fsOk : PathT → Bool)
    (scan_time : Nat) (keys : List KeyCode) : MainResult :=
  if args.delete_all && !confirm_delete_all confirmKey then
    { scanEntered := false, modulesAfter := [], dispatches := [], exitOk := true }
  else
    let start := startDir args home canonicalDir
    let roots := discoveryPassRoots start startTree
    let merged :=
      (roots.map fun r => scanModules now parentOf details args r.1 r.2).flatten
    let sorted := applySort args.sort merged
    let session := run_tui fsOk args.delete_all keys (App.new sorted scan_time)
    { scanEntered := true
      modulesAfter := session.1.modules
      dispatches := session.2
      exitOk := true }

/-! ## Lemmas about match counting (`is_nested_module`) -/

theorem countOccurrences_nil_pattern (s : List Char) :
    countOccurrences s [] = s.length + 1 := by
  induction s with
  | nil => rfl
  | cons c rest ih =>
    simp [countOccurrences, ih, List.isPrefixOf]
    omega

theorem countOccurrences_drop_le (k : Nat) (s t : List Char) :
    countOccurrences (s.drop k) t ≤ countOccurrences s t := by
  induction s generalizing k with
  | nil => simp
  | cons c rest ih =>
    cases k with
    | zero => simp
    | succ k' =>
      calc countOccurrences ((c :: rest).drop (k' + 1)) t
          = countOccurrences (rest.drop k') t := rfl
        _ ≤ countOccurrences rest t := ih k'
        _ ≤ countOccurrences (c :: rest) t := by
            simp only [countOccurrences]
            exact Nat.le_add_left _ _

theorem countMatchesFuel_le (fuel : Nat) (s t : List Char) :
    countMatchesFuel fuel s t ≤ countOccurrences s t := by
  induction fuel generalizing s with
  | zero =>
    cases t with
    | nil => simp [countMatchesFuel, countOccurrences_nil_pattern]
    | cons th tt => simp [countMatchesFuel]
  | succ fuel ih =>
    cases t with
    | nil => simp [countMatchesFuel, countOccurrences_nil_pattern]
    | cons th tt =>
      cases s with
      | nil => simp [countMatchesFuel]
      | cons c rest =>
        by_cases hp : (th :: tt).isPrefixOf (c :: rest) = true
        · have hcm : countMatchesFuel (fuel + 1) (c :: rest) (th :: tt)
              = 1 + countMatchesFuel fuel ((c :: rest).drop (tt.length + 1)) (th :: tt) := by
            simp [countMatchesFuel, hp]
          have h1 := ih ((c :: rest).drop (tt.length + 1))
          have h2 : countOccurrences ((c :: rest).drop (tt.length + 1)) (th :: tt)
              ≤ countOccurrences rest (th :: tt) := by
            have he : (c :: rest).drop (tt.length + 1) = rest.drop tt.length := rfl
            rw [he]
            exact countOccurrences_drop_le _ _ _
          have h3 : countOccurrences (c :: rest) (th :: tt)
              = 1 + countOccurrences rest (th :: tt) := by
            simp [countOccurrences, hp]
          omega
        ·  have hcm : countMatchesFuel (fuel + 1) (c :: rest) (th :: tt)
              = countMatchesFuel fuel rest (th :: tt) := by
            simp [countMatchesFuel, hp]
           have h1 := ih rest
           have h3 : countOccurrences (c :: rest) (th :: tt)
              = countOccurrences rest (th :: tt) := by
            simp [countOccurrences, hp]
           omega

theorem countMatchesFuel_pos (fuel : Nat) (s t : List Char) (j : Nat)
    (hf : s.length ≤ fuel) (hj : j ≤ s.length)
    (ho : t.isPrefixOf (s.drop j) = true) :
    1 ≤ countMatchesFuel fuel s t := by
  induction fuel generalizing s j with
  | zero =>
    cases t with
    | nil => simp [countMatchesFuel]
    | cons th tt =>
      have hs : s = [] := List.length_eq_zero.mp (Nat.le_zero.mp hf)
      subst hs
      simp [List.isPrefixOf] at ho
  | succ fuel ih =>
    cases t with
    | nil => simp [countMatchesFuel]
    | cons th tt =>
      cases s with
      | nil => simp [List.isPrefixOf] at ho
      | cons c rest =>
        by_cases hp : (th :: tt).isPrefixOf (c :: rest) = true
        · simp [countMatchesFuel, hp]
        · have hcm : countMatchesFuel (fuel + 1) (c :: rest) (th :: tt)
              = countMatchesFuel fuel rest (th :: tt) := by
            simp [countMatchesFuel, hp]
          rw [hcm]
          cases j with
          | zero =>
            rw [List.drop_zero] at ho
            exact absurd ho hp
          | succ j' =>
            refine ih rest j' ?_ ?_ ho
            · simp at hf; omega
            · simp at hj; omega

theorem countMatchesFuel_two (fuel : Nat) (s t : List Char) (i j : Nat)
    (hf : s.length ≤ fuel) (hij : i < j) (hsep : i + t.length ≤ j)
    (hjs : j ≤ s.length)
    (hi : t.isPrefixOf (s.drop i) = true)
    (hj : t.isPrefixOf (s.drop j) = true) :
    2 ≤ countMatchesFuel fuel s t := by
  induction fuel generalizing s i j with
  | zero =>
    have hs : s = [] := List.length_eq_zero.mp (Nat.le_zero.mp hf)
    subst hs
    simp at hjs
    omega
  | succ fuel ih =>
    cases t with
    | nil =>
      have h1 : 1 ≤ s.length := by omega
      simp [countMatchesFuel]
      omega
    | cons th tt =>
      cases s with
      | nil => simp at hjs; omega
      | cons c rest =>
        by_cases hp : (th :: tt).isPrefixOf (c :: rest) = true
        · have hcm : countMatchesFuel (fuel + 1) (c :: rest) (th :: tt)
              = 1 + countMatchesFuel fuel ((c :: rest).drop (tt.length + 1)) (th :: tt) := by
            simp [countMatchesFuel, hp]
          rw [hcm]
          have hL : tt.length + 1 ≤ j := by simp at hsep; omega
          have hdrop : ((c :: rest).drop (tt.length + 1)).drop (j - (tt.length + 1))
              = (c :: rest).drop j := by
            rw [List.drop_drop]
            congr 1
            omega
          have h1 : 1 ≤ countMatchesFuel fuel ((c :: rest).drop (tt.length + 1)) (th :: tt) := by
            refine countMatchesFuel_pos fuel _ _ (j - (tt.length + 1)) ?_ ?_ ?_
            · simp [List.length_drop]
              simp at hf
              omega
            · simp [List.length_drop]
              simp at hjs
              omega
            · rw [hdrop]
              exact hj
          omega
        · have hcm : countMatchesFuel (fuel + 1) (c :: rest) (th :: tt)
              = countMatchesFuel fuel rest (th :: tt) := by
            simp [countMatchesFuel, hp]
          rw [hcm]
          cases i with
          | zero =>
            rw [List.drop_zero] at hi
            exact absurd hi hp
          | succ i' =>
            cases j with
            | zero => omega
            | succ j' =>
              refine ih rest i' j' ?_ ?_ ?_ ?_ hi hj
              · simp at hf; omega
              · omega
              · simp at hsep ⊢; omega
              · simp at hjs; omega

/-- C7: A path containing the target exactly once is not nested; a path
containing the target at two positions at least `|target|` apart (two
non-overlapping occurrences) is nested. The original claim, which asks for
nestedness from any two (possibly overlapping) occurrences, fails: see the
counterexample. -/
theorem C7_nested_match (path target : List Char) :
    (countOccurrences path target = 1 → is_nested_module path target = false)
    ∧ (∀ i j, i < j → i + target.length ≤ j → j ≤ path.length →
        target.isPrefixOf (path.drop i) = true →
        target.isPrefixOf (path.drop j) = true →
        is_nested_module path target = true) := by
  constructor
  · intro h1
    have hle := countMatchesFuel_le path.length path target
    rw [h1] at hle
    simp only [is_nested_module, countMatches, gt_iff_lt, decide_eq_false_iff_not, not_lt]
    omega
  · intro i j hij hsep hjs hi hj
    have h2 := countMatchesFuel_two path.length path target i j le_rfl hij hsep hjs hi hj
    simp only [is_nested_module, countMatches, gt_iff_lt, decide_eq_true_eq]
    omega

/-- C7, counterexample to the claim as stated: `"aaa"` contains `"aa"`
twice (at positions 0 and 1), yet `is_nested_module` is false, because the
code counts non-overlapping matches. -/
theorem C7_counterexample :
    countOccurrences ['a', 'a', 'a'] ['a', 'a'] = 2
    ∧ is_nested_module ['a', 'a', 'a'] ['a', 'a'] = false := by decide

/-- C7, witness: the amended theorem applied at concrete inputs: the path
`/a/nm/b/nm` contains the target `nm` at the disjoint positions 3 and 8 and
is nested; the path `/a/nm` contains it exactly once and is not nested. -/
theorem C7_witness :
    is_nested_module ['/', 'a', '/', 'n', 'm', '/', 'b', '/', 'n', 'm'] ['n', 'm'] = true
    ∧ is_nested_module ['/', 'a', '/', 'n', 'm'] ['n', 'm'] = false :=
  ⟨(C7_nested_match _ _).2 3 8 (by decide) (by decide) (by decide) (by decide) (by decide),
   (C7_nested_match _ _).1 (by decide)⟩

/-! ## C6: `is_dangerous` versus dot-prefixed segments -/

/-- C6, amended: a path with a segment (splitting on `/` and `\`) that
begins with `.` and is not `.`/`..` is sensitive; and a path whose only
dot-prefixed segments are `.`/`..` is not sensitive provided it also has no
macOS app-bundle indicator (a `.app/` substring or `.app` suffix) and no
`\AppData\` substring — the latter two conditions are needed because
`is_dangerous` also fires on them. -/
theorem C6_dot_segments (p : PathT) :
    ((∃ part ∈ splitOnChar '/' p ++ splitOnChar '\\' p,
        startsWithDot part = true ∧ part ≠ ['.'] ∧ part ≠ ['.', '.']) →
      is_dangerous p = true)
    ∧ (containsSub p ['.', 'a', 'p', 'p', '/'] = false →
      List.isSuffixOf ['.', 'a', 'p', 'p'] p = false →
      containsSub p ['\\', 'A', 'p', 'p', 'D', 'a', 't', 'a', '\\'] = false →
      (∀ part ∈ splitOnChar '/' p ++ splitOnChar '\\' p,
        startsWithDot part = true → part = ['.'] ∨ part = ['.', '.']) →
      is_dangerous p = false) := by
  constructor
  · rintro ⟨part, hmem, h1, h2, h3⟩
    have hany : ((splitOnChar '/' p ++ splitOnChar '\\' p).any
        fun part => startsWithDot part && part != ['.'] && part != ['.', '.']) = true := by
      refine List.any_eq_true.mpr ⟨part, hmem, ?_⟩
      simp [h1, h2, h3]
    simp [is_dangerous, hany]
  · intro hm1 hm2 hm3 hall
    have hany : ((splitOnChar '/' p ++ splitOnChar '\\' p).any
        fun part => startsWithDot part && part != ['.'] && part != ['.', '.']) = false := by
      refine List.any_eq_false.mpr ?_
      intro part hmem hcond
      simp only [Bool.and_eq_true, bne_iff_ne] at hcond
      rcases hall part hmem hcond.1.1 with h | h
      · exact hcond.1.2 h
      · exact hcond.2 h
    simp [is_dangerous, hany, hm1, hm2, hm3]

/-- C6, counterexample to the claim as stated: the path
`/Applications/Foo.app/Contents` has no dot-prefixed segment on either
separator, yet the sensitivity predicate returns true (the `.app/`
component triggers it). -/
theorem C6_counterexample :
    (((splitOnChar '/' ("/Applications/Foo.app/Contents".toList)
        ++ splitOnChar '\\' ("/Applications/Foo.app/Contents".toList)).all
      fun part => !(startsWithDot part && part != ['.'] && part != ['.', '.'])) = true)
    ∧ is_dangerous ("/Applications/Foo.app/Contents".toList) = true := by decide

/-- C6, witness: the amended theorem applied to concrete paths: a dotted
segment makes `/home/user/.npm` sensitive; `/home/user/docs` (no dotted
segment, no `.app`, no `\AppData\`) is not sensitive. -/
theorem C6_witness :
    is_dangerous ("/home/user/.npm".toList) = true
    ∧ is_dangerous ("/home/user/docs".toList) = false :=
  ⟨(C6_dot_segments _).1 ⟨['.', 'n', 'p', 'm'], by decide, by decide, by decide, by decide⟩,
   (C6_dot_segments _).2 (by decide) (by decide) (by decide) (by decide)⟩

/-! ## C10: empty exclusion string excludes everything -/

theorem containsSub_nil (s : PathT) : containsSub s [] = true := by
  refine List.any_eq_true.mpr ⟨0, ?_, ?_⟩
  · simp [List.mem_range]
  · simp [List.isPrefixOf]

/-- C10: with the exclusion option present but equal to the empty string,
the configured exclusion substrings are `[""]`; the empty substring is
contained in every path, so the traversal predicate rejects every entry
(the root included) and the scan contributes no entries, whatever the
directory tree and metadata oracles are. -/
theorem C10_empty_exclusion (args : Args) (rootPath : PathT) (t : FsTree)
    (h : args.exclude_paths = some []) :
    (∀ p n, scanPred args (excludedPathsOf args) p n = false)
    ∧ scanEntries args rootPath t = []
    ∧ ∀ now parentOf details,
        scanModules now parentOf details args rootPath t = [] := by
  have he : excludedPathsOf args = [[]] := by
    simp [excludedPathsOf, h, splitOnChar]
  have hpred : ∀ p n, scanPred args (excludedPathsOf args) p n = false := by
    intro p n
    rw [he]
    simp [scanPred, containsSub_nil]
  have hentries : scanEntries args rootPath t = [] := by
    cases t with
    | node name children =>
      rw [scanEntries, walkTree, hpred rootPath name]
      simp
  exact ⟨hpred, hentries, fun now parentOf details => by
    simp [scanModules, hentries]⟩

/-- C10, witness: the theorem applied to a concrete configuration
(`--exclude ""`) and a tree whose root has one `node_modules` child: the
scan yields nothing. -/
theorem C10_witness :
    scanEntries
      { directory := ['.'], exclude_hidden := false,
        target := ['n', 'o', 'd', 'e', '_', 'm', 'o', 'd', 'u', 'l', 'e', 's'],
        full := false, in_gb := false, exclude_paths := some [], sort := none,
        delete_all := false }
      ['/', 'r']
      (.node ['r'] [.node ['n', 'o', 'd', 'e', '_', 'm', 'o', 'd', 'u', 'l', 'e', 's'] []])
      = [] :=
  (C10_empty_exclusion _ _ _ rfl).2.1

/-! ## C1: full mode fans out one pass per immediate child of home -/

/-- C1, amended: with `fullMode` enabled, `runScan` does not run a single
discovery pass rooted at the home directory; it enumerates the immediate
children of the home directory and launches one discovery pass per child,
each pass rooted at that child — exactly the fan-out used for an ordinary
start directory. -/
theorem C1_full_mode_fanout (args : Args) (home canonicalDir : PathT)
    (startTree : FsTree) (h : args.full = true) :
    discoveryPassRoots (startDir args home canonicalDir) startTree
      = startTree.children.map fun c => (childPath home c.name, c) := by
  simp [discoveryPassRoots, startDir, h]

/-- C1, counterexample to the claim as stated: in full mode, with a home
directory holding two children, two discovery passes are launched (not
one), and neither is rooted at the home directory itself. -/
theorem C1_counterexample :
    (discoveryPassRoots
        (startDir
          { directory := ['.'], exclude_hidden := false, target := ['n', 'm'],
            full := true, in_gb := false, exclude_paths := none, sort := none,
            delete_all := false }
          ['/', 'h'] ['/', 'd'])
        (.node ['h'] [.node ['a'] [], .node ['b'] []])).length = 2
    ∧ ((discoveryPassRoots
        (startDir
          { directory := ['.'], exclude_hidden := false, target := ['n', 'm'],
            full := true, in_gb := false, exclude_paths := none, sort := none,
            delete_all := false }
          ['/', 'h'] ['/', 'd'])
        (.node ['h'] [.node ['a'] [], .node ['b'] []])).all
      fun r => r.1 != ['/', 'h']) = true := by
  constructor
  · rfl
  · rfl

/-- C1, witness: the amended theorem applied to a concrete full-mode
configuration with one home child. -/
theorem C1_witness :
    discoveryPassRoots
        (startDir
          { directory := ['.'], exclude_hidden := false, target := ['n', 'm'],
            full := true, in_gb := false, exclude_paths := none, sort := none,
            delete_all := false }
          ['/', 'h'] ['/', 'd'])
        (.node ['h'] [.node ['a'] []])
      = (FsTree.node ['h'] [.node ['a'] []]).children.map
          fun c => (childPath ['/', 'h'] c.name, c) :=
  C1_full_mode_fanout _ _ _ _ rfl

/-! ## C2: the `last-mod` sort order -/

theorem insertBy_perm (le : NodeModule → NodeModule → Bool) (m : NodeModule)
    (l : List NodeModule) : (insertBy le m l).Perm (m :: l) := by
  induction l with
  | nil => exact List.Perm.refl _
  | cons x xs ih =>
    rw [insertBy]
    by_cases h : le m x = true
    · simp [h]
    · simp only [h, if_false, Bool.false_eq_true]
      exact ((ih.cons x).trans (List.Perm.swap m x xs))

theorem sortBy_perm (le : NodeModule → NodeModule → Bool) (l : List NodeModule) :
    (sortBy le l).Perm l := by
  induction l with
  | nil => exact List.Perm.refl _
  | cons x xs ih =>
    exact (insertBy_perm le x (sortBy le xs)).trans (ih.cons x)

theorem chain'_insertBy (le : NodeModule → NodeModule → Bool)
    (htot : ∀ a b, le a b = false → le b a = true)
    (m : NodeModule) (l : List NodeModule)
    (hl : List.Chain' (fun a b => le a b = true) l) :
    List.Chain' (fun a b => le a b = true) (insertBy le m l) := by
  induction l with
  | nil => simp [insertBy]
  | cons x xs ih =>
    rw [insertBy]
    by_cases h : le m x = true
    · simp only [h, if_true]
      refine List.chain'_cons'.mpr ⟨?_, hl⟩
      intro y hy
      simp at hy
      subst hy
      exact h
    · simp only [h, if_false, Bool.false_eq_true]
      have hx := List.chain'_cons'.mp hl
      refine List.chain'_cons'.mpr ⟨?_, ih hx.2⟩
      intro y hy
      cases xs with
      | nil =>
        simp [insertBy] at hy
        subst hy
        exact htot m x (Bool.eq_false_iff.mpr h)
      | cons z zs =>
        rw [insertBy] at hy
        by_cases hz : le m z = true
        · simp only [hz, if_true] at hy
          simp at hy
          subst hy
          exact htot m x (Bool.eq_false_iff.mpr h)
        · simp only [hz, if_false, Bool.false_eq_true] at hy
          simp at hy
          subst hy
          exact hx.1 z (by simp)

theorem sortBy_chain' (le : NodeModule → NodeModule → Bool)
    (htot : ∀ a b, le a b = false → le b a = true) (l : List NodeModule) :
    List.Chain' (fun a b => le a b = true) (sortBy le l) := by
  induction l with
  | nil => simp [sortBy]
  | cons x xs ih => exact chain'_insertBy le htot x (sortBy le xs) ih

/-- C2, amended: sorting with the `last-mod` key orders entries
least-recently-modified first: the stored age values (signed seconds
elapsed) along the sorted output are in descending (non-increasing) order,
and the output is a permutation of the input. -/
theorem C2_lastmod_descending (l : List NodeModule) :
    List.Chain' (fun a b => b.modified ≤ a.modified)
      (applySort (some SortBy.lastMod) l)
    ∧ (applySort (some SortBy.lastMod) l).Perm l := by
  constructor
  · have h := sortBy_chain' lastModLe (fun a b hab => by
      simp [lastModLe] at hab ⊢
      omega) l
    refine List.Chain'.imp ?_ h
    intro a b hab
    simpa [lastModLe] using hab
  · exact sortBy_perm lastModLe l

/-- C2, counterexample to the claim as stated: two entries with stored ages
5 and 10 sort to `[10, 5]` under the `last-mod` key — the stored age values
of the output are not in ascending order. -/
theorem C2_counterexample :
    ¬ List.Chain' (fun a b => a.modified ≤ b.modified)
      (applySort (some SortBy.lastMod)
        [{ path := ['a'], size := 0, modified := 5, deleted := false,
           is_dangerous := false },
         { path := ['b'], size := 0, modified := 10, deleted := false,
           is_dangerous := false }]) := by
  rw [show applySort (some SortBy.lastMod)
      [{ path := ['a'], size := 0, modified := 5, deleted := false,
         is_dangerous := false },
       { path := ['b'], size := 0, modified := 10, deleted := false,
         is_dangerous := false }]
    = [{ path := ['b'], size := 0, modified := 10, deleted := false,
         is_dangerous := false },
       { path := ['a'], size := 0, modified := 5, deleted := false,
         is_dangerous := false }] from rfl]
  simp [List.chain'_cons]

/-! ## C3: bulk-delete dispatch during rendering -/

/-- A render pass over a list of already-deleted entries changes nothing
and dispatches nothing. -/
theorem renderPass_all_deleted (fsOk : PathT → Bool) (da : Bool)
    (ms : List NodeModule) (total : Nat)
    (h : ∀ m ∈ ms, m.deleted = true) :
    renderPass fsOk da ms total = (ms, total, []) := by
  induction ms generalizing total with
  | nil => rfl
  | cons m rest ih =>
    have hm : m.deleted = true := h m (by simp)
    rw [renderPass]
    simp only [hm, Bool.not_true, Bool.and_false, if_false, Bool.false_eq_true]
    rw [ih total fun x hx => h x (by simp [hx])]

/-- C3, amended: after an affirmative bulk-delete confirmation, deletion is
dispatched lazily during rendering, but a single render pass dispatches
every entry whose deleted flag is still false (not one entry per pass);
each entry is dispatched exactly once: entries already deleted are skipped,
after the pass every entry is deleted, the reclaimed counter has absorbed
the sizes of the freshly deleted entries, and a subsequent render pass
dispatches nothing. -/
theorem C3_render_bulk_delete (fsOk : PathT → Bool) (ms : List NodeModule)
    (total : Nat) :
    ((renderPass fsOk true ms total).2.2.map Dispatch.path
      = (ms.filter fun m => !m.deleted).map NodeModule.path)
    ∧ (∀ m ∈ (renderPass fsOk true ms total).1, m.deleted = true)
    ∧ ((renderPass fsOk true ms total).2.1
      = total + ((ms.filter fun m => !m.deleted).map NodeModule.size).sum)
    ∧ (renderPass fsOk true (renderPass fsOk true ms total).1
        (renderPass fsOk true ms total).2.1).2.2 = [] := by
  have main : ∀ (l : List NodeModule) (t : Nat),
      ((renderPass fsOk true l t).2.2.map Dispatch.path
        = (l.filter fun m => !m.deleted).map NodeModule.path)
      ∧ (∀ m ∈ (renderPass fsOk true l t).1, m.deleted = true)
      ∧ ((renderPass fsOk true l t).2.1
        = t + ((l.filter fun m => !m.deleted).map NodeModule.size).sum) := by
    intro l
    induction l with
    | nil => intro t; simp [renderPass]
    | cons m rest ih =>
      intro t
      by_cases hm : m.deleted = true
      · rw [renderPass]
        simp only [hm, Bool.not_true, Bool.and_false, if_false, Bool.false_eq_true]
        rcases ih t with ⟨h1, h2, h3⟩
        refine ⟨by simpa [hm] using h1, ?_, by simpa [hm] using h3⟩
        intro x hx
        simp at hx
        rcases hx with hx | hx
        · exact hx ▸ hm
        · exact h2 x hx
      · have hm' : m.deleted = false := Bool.eq_false_iff.mpr hm
        rw [renderPass]
        simp only [hm', Bool.not_false, Bool.and_true, if_true]
        rcases ih (t + m.size) with ⟨h1, h2, h3⟩
        refine ⟨?_, ?_, ?_⟩
        · simpa [NodeModule.delete, hm'] using h1
        · intro x hx
          simp [NodeModule.delete] at hx
          rcases hx with hx | hx
          · rw [hx]
          · exact h2 x hx
        · rw [h3]
          simp [hm']
          omega
  rcases main ms total with ⟨h1, h2, h3⟩
  refine ⟨h1, h2, h3, ?_⟩
  rw [renderPass_all_deleted fsOk true _ _ h2]

/-- C3, counterexample to the claim as stated: with two not-yet-deleted
entries, a single render pass after an affirmative confirmation dispatches
both of them — not one entry per render pass. -/
theorem C3_counterexample :
    ((renderPass (fun _ => true) true
        [{ path := ['a'], size := 1, modified := 0, deleted := false,
           is_dangerous := false },
         { path := ['b'], size := 2, modified := 0, deleted := false,
           is_dangerous := false }] 0).2.2).length = 2 := by decide

/-! ## C4 / C5: session-state lemmas -/

/-- The sum of the recorded sizes of the entries currently marked
deleted. -/
def deletedSum : List NodeModule → Nat
  | [] => 0
  | m :: ms => (if m.deleted then m.size else 0) + deletedSum ms

theorem deletedSum_eq_zero (ms : List NodeModule)
    (h : ∀ m ∈ ms, m.deleted = false) : deletedSum ms = 0 := by
  induction ms with
  | nil => rfl
  | cons m rest ih =>
    simp [deletedSum, h m (by simp), ih fun x hx => h x (by simp [hx])]

theorem deletedSum_set (l : List NodeModule) (i : Nat) (m : NodeModule)
    (hg : l[i]? = some m) (hd : m.deleted = false) :
    deletedSum (l.set i { m with deleted := true }) = deletedSum l + m.size := by
  induction l generalizing i with
  | nil => simp at hg
  | cons x xs ih =>
    cases i with
    | zero =>
      simp at hg
      subst hg
      simp [deletedSum, hd]
      omega
    | succ i' =>
      simp at hg
      simp only [List.set_cons_succ, deletedSum]
      rw [ih i' hg]
      omega

theorem on_key_counter (fsOk : PathT → Bool) (k : KeyCode) (app : App) :
    (App.on_key fsOk k app).1.total_deleted + deletedSum app.modules
      = app.total_deleted + deletedSum (App.on_key fsOk k app).1.modules := by
  cases k with
  | up => by_cases hs : app.scroll > 0 <;> simp [App.on_key, hs]
  | down =>
    by_cases hs : app.scroll < app.modules.length - 1 <;> simp [App.on_key, hs]
  | other => simp [App.on_key]
  | char c =>
    by_cases hc : (c == ' ') = true
    · cases hg : app.modules[app.scroll]? with
      | none => simp [App.on_key, hc, hg]
      | some m =>
        by_cases hd : m.deleted = true
        · simp [App.on_key, hc, hg, hd]
        · have hd' : m.deleted = false := Bool.eq_false_iff.mpr hd
          simp [App.on_key, hc, hg, hd']
          rw [deletedSum_set app.modules app.scroll m hg hd']
          omega
    · simp [App.on_key, hc]

theorem runKeys_counter (fsOk : PathT → Bool) (keys : List KeyCode) (app : App) :
    (runKeys fsOk keys app).1.total_deleted + deletedSum app.modules
      = app.total_deleted + deletedSum (runKeys fsOk keys app).1.modules := by
  induction keys generalizing app with
  | nil => simp [runKeys]
  | cons k ks ih =>
    simp only [runKeys]
    have h1 := on_key_counter fsOk k app
    have h2 := ih (App.on_key fsOk k app).1
    omega

theorem on_key_state_indep (f g : PathT → Bool) (k : KeyCode) (app : App) :
    (App.on_key f k app).1 = (App.on_key g k app).1 := by
  cases k with
  | up => rfl
  | down => rfl
  | other => rfl
  | char c =>
    by_cases hc : (c == ' ') = true
    · cases hg : app.modules[app.scroll]? with
      | none => simp [App.on_key, hc, hg]
      | some m =>
        by_cases hd : m.deleted = true
        · simp [App.on_key, hc, hg, hd]
        · have hd' : m.deleted = false := Bool.eq_false_iff.mpr hd
          simp [App.on_key, hc, hg, hd']
    · simp [App.on_key, hc]

theorem runKeys_state_indep (f g : PathT → Bool) (keys : List KeyCode)
    (app : App) : (runKeys f keys app).1 = (runKeys g keys app).1 := by
  induction keys generalizing app with
  | nil => rfl
  | cons k ks ih =>
    simp only [runKeys]
    rw [on_key_state_indep f g k app]
    exact ih _

/-- C4: starting from a session whose entries are all not yet deleted and
whose reclaimed counter is zero, after any input sequence the counter
equals the sum of the recorded sizes of the entries now marked deleted (so
N selects on N distinct fresh entries accumulate exactly those N sizes);
the resulting state is the same whatever the outcomes of the dispatched
filesystem removals; and a select on an entry already marked deleted leaves
the whole session state unchanged and dispatches nothing. -/
theorem C4_reclaimed_accounting (fsOk g : PathT → Bool) (keys : List KeyCode)
    (app : App) (h0 : ∀ m ∈ app.modules, m.deleted = false)
    (ht : app.total_deleted = 0) :
    ((runKeys fsOk keys app).1.total_deleted
        = deletedSum (runKeys fsOk keys app).1.modules)
    ∧ (runKeys g keys app).1 = (runKeys fsOk keys app).1
    ∧ (∀ (app2 : App) (m : NodeModule), app2.modules[app2.scroll]? = some m →
        m.deleted = true →
        App.on_key fsOk (KeyCode.char ' ') app2 = (app2, [])) := by
  refine ⟨?_, runKeys_state_indep g fsOk keys app, ?_⟩
  · have h1 := runKeys_counter fsOk keys app
    rw [deletedSum_eq_zero app.modules h0, ht] at h1
    omega
  · intro app2 m hg hd
    simp [App.on_key, hg, hd]

/-- A concrete one-entry fresh session used to witness C4. -/
def c4App : App where
  modules := [{ path := ['a'], size := 7, modified := 0, deleted := false, is_dangerous := false }]
  scroll := 0
  scan_time := 0
  total_deleted := 0

/-- C4, witness: one select on a one-entry fresh session credits that
entry's size (7) to the counter, the session state does not depend on the
removal outcome, and a select on an already-deleted entry is a no-op. -/
theorem C4_witness :
    ((runKeys (fun _ => false) [KeyCode.char ' '] c4App).1.total_deleted
      = deletedSum (runKeys (fun _ => false) [KeyCode.char ' '] c4App).1.modules)
    ∧ (runKeys (fun _ => true) [KeyCode.char ' '] c4App).1
      = (runKeys (fun _ => false) [KeyCode.char ' '] c4App).1
    ∧ (∀ (app2 : App) (m : NodeModule), app2.modules[app2.scroll]? = some m →
        m.deleted = true →
        App.on_key (fun _ => false) (KeyCode.char ' ') app2 = (app2, [])) :=
  C4_reclaimed_accounting (fun _ => false) (fun _ => true) [KeyCode.char ' ']
    c4App (by decide) rfl

theorem on_key_bounds (fsOk : PathT → Bool) (k : KeyCode) (app : App)
    (h1 : 0 < app.modules.length → app.scroll < app.modules.length)
    (h2 : app.modules.length = 0 → app.scroll = 0) :
    (0 < (App.on_key fsOk k app).1.modules.length →
        (App.on_key fsOk k app).1.scroll < (App.on_key fsOk k app).1.modules.length)
    ∧ ((App.on_key fsOk k app).1.modules.length = 0 →
        (App.on_key fsOk k app).1.scroll = 0) := by
  cases k with
  | up =>
    by_cases hs : app.scroll > 0
    · simp only [App.on_key, hs, if_true]
      constructor
      · intro hlen
        have := h1 hlen
        omega
      · intro hlen
        have := h2 hlen
        omega
    · simp only [App.on_key, hs, if_false]
      exact ⟨h1, h2⟩
  | down =>
    by_cases hs : app.scroll < app.modules.length - 1
    · simp only [App.on_key, hs, if_true]
      constructor
      · intro hlen
        omega
      · intro hlen
        omega
    · simp only [App.on_key, hs, if_false]
      exact ⟨h1, h2⟩
  | other => exact ⟨h1, h2⟩
  | char c =>
    by_cases hc : (c == ' ') = true
    · cases hg : app.modules[app.scroll]? with
      | none =>
        simp only [App.on_key, hc, hg, if_true]
        exact ⟨h1, h2⟩
      | some m =>
        by_cases hd : m.deleted = true
        · simp only [App.on_key, hc, hg, hd, if_true]
          exact ⟨h1, h2⟩
        · have hd' : m.deleted = false := Bool.eq_false_iff.mpr hd
          simp only [App.on_key, hc, hg, hd', if_true, Bool.false_eq_true,
            if_false, List.length_set]
          exact ⟨h1, h2⟩
    · simp only [App.on_key, hc, Bool.false_eq_true, if_false]
      exact ⟨h1, h2⟩

/-- C5: from any session state satisfying the cursor invariant, any
sequence of move-up/move-down events keeps the cursor inside
`[0, len - 1]` when the entry list is non-empty, and leaves it at 0 when
the list is empty. -/
theorem C5_cursor_bounds (fsOk : PathT → Bool) (keys : List KeyCode)
    (app : App)
    (hkeys : ∀ k ∈ keys, k = KeyCode.up ∨ k = KeyCode.down)
    (h1 : 0 < app.modules.length → app.scroll < app.modules.length)
    (h2 : app.modules.length = 0 → app.scroll = 0) :
    (0 < (runKeys fsOk keys app).1.modules.length →
        (runKeys fsOk keys app).1.scroll
          < (runKeys fsOk keys app).1.modules.length)
    ∧ ((runKeys fsOk keys app).1.modules.length = 0 →
        (runKeys fsOk keys app).1.scroll = 0) := by
  induction keys generalizing app with
  | nil => exact ⟨h1, h2⟩
  | cons k ks ih =>
    simp only [runKeys]
    have hstep := on_key_bounds fsOk k app h1 h2
    exact ih (App.on_key fsOk k app).1
      (fun x hx => hkeys x (List.mem_cons_of_mem _ hx)) hstep.1 hstep.2

/-- A concrete two-entry fresh session used to witness C5. -/
def c5App : App where
  modules :=
    [{ path := ['a'], size := 1, modified := 0, deleted := false, is_dangerous := false },
     { path := ['b'], size := 2, modified := 0, deleted := false, is_dangerous := false }]
  scroll := 0
  scan_time := 0
  total_deleted := 0

/-- C5, witness: the theorem applied to a concrete two-entry session and
the event sequence up, down, down: the cursor stays a valid index. -/
theorem C5_witness :
    (0 < (runKeys (fun _ => true) [KeyCode.up, KeyCode.down, KeyCode.down]
          c5App).1.modules.length →
      (runKeys (fun _ => true) [KeyCode.up, KeyCode.down, KeyCode.down]
          c5App).1.scroll
        < (runKeys (fun _ => true) [KeyCode.up, KeyCode.down, KeyCode.down]
          c5App).1.modules.length)
    ∧ ((runKeys (fun _ => true) [KeyCode.up, KeyCode.down, KeyCode.down]
          c5App).1.modules.length = 0 →
      (runKeys (fun _ => true) [KeyCode.up, KeyCode.down, KeyCode.down]
          c5App).1.scroll = 0) :=
  C5_cursor_bounds (fun _ => true) [KeyCode.up, KeyCode.down, KeyCode.down]
    c5App (by decide) (by decide) (by decide)

/-! ## C8: probe failure is a soft degrade -/

/-- C8: under the (true of `fs_extra` with config `{Size, Modified}`)
assumption that a successful details fetch always carries a `SystemTime`
modification attribute, the probe returns `none` exactly when the path has
no parent or one of the two underlying metadata fetches fails; a `none`
probe result degrades the constructed entry to size 0 and age 0 (current
time); and the scan still reports one entry per match whatever the probe
returns. -/
theorem C8_probe_soft_degrade (parentOf : PathT → Option PathT)
    (details : PathT → Option AttrMap) (now : Int) (p : PathT)
    (hmod : ∀ q m, details q = some m →
      ∃ t, m.modified = some (DirEntryValue.systemTime t)) :
    (get_dir_details parentOf details p = none ↔
      (parentOf p = none ∨ details p = none ∨
        ∃ parent, parentOf p = some parent ∧ details parent = none))
    ∧ (NodeModule.new now p none).size = 0
    ∧ (NodeModule.new now p none).modified = 0
    ∧ ∀ (args : Args) (rootPath : PathT) (t : FsTree),
        (scanModules now parentOf details args rootPath t).map NodeModule.path
          = (scanEntries args rootPath t).map Prod.fst := by
  refine ⟨?_, rfl, by simp [NodeModule.new], ?_⟩
  · cases hpar : parentOf p with
    | none => simp [get_dir_details, hpar]
    | some parent =>
      cases hdp : details p with
      | none => simp [get_dir_details, hpar, hdp]
      | some node_details =>
        cases hdq : details parent with
        | none => simp [get_dir_details, hpar, hdp, hdq]
        | some parent_details =>
          rcases hmod parent parent_details hdq with ⟨t, hmt⟩
          simp [get_dir_details, hpar, hdp, hdq, hmt]
  · intro args rootPath t
    rw [scanModules, List.map_map]
    rfl

/-- C8, witness: with oracles under which every metadata fetch fails, the
probe of the path `a` is `none` and the degraded entry has size 0 and age
0; a one-match tree still reports that match. -/
theorem C8_witness :
    ((get_dir_details (fun _ => none) (fun _ => none) ['a'] = none ↔
      ((fun _ => none : PathT → Option PathT) ['a'] = none ∨
        (fun _ => none : PathT → Option AttrMap) ['a'] = none ∨
        ∃ parent, (fun _ => none : PathT → Option PathT) ['a'] = some parent ∧
          (fun _ => none : PathT → Option AttrMap) parent = none))
    ∧ (NodeModule.new 5 ['a'] none).size = 0
    ∧ (NodeModule.new 5 ['a'] none).modified = 0
    ∧ ∀ (args : Args) (rootPath : PathT) (t : FsTree),
        (scanModules 5 (fun _ => none) (fun _ => none) args rootPath t).map
            NodeModule.path
          = (scanEntries args rootPath t).map Prod.fst) :=
  C8_probe_soft_degrade (fun _ => none) (fun _ => none) 5 ['a']
    (fun _ _ h => Option.noConfusion h)

/-! ## C9: declined bulk-delete confirmation is a clean no-op exit -/

/-- C9: when the bulk-delete flag is set and the confirmation prompt
receives any key other than `y`, the program run performs no scan, never
enters the interactive loop (no entries exist, so no deleted flag is ever
mutated), dispatches no removals, and exits cleanly. -/
theorem C9_confirmation_abort (args : Args) (confirmKey : KeyCode)
    (home canonicalDir : PathT) (startTree : FsTree) (now : Int)
    (parentOf : PathT → Option PathT) (details : PathT → Option AttrMap)
    (fsOk : PathT → Bool) (scan_time : Nat) (keys : List KeyCode)
    (hda : args.delete_all = true) (hkey : confirmKey ≠ KeyCode.char 'y') :
    mainFlow args confirmKey home canonicalDir startTree now parentOf details
        fsOk scan_time keys
      = { scanEntered := false, modulesAfter := [], dispatches := [],
          exitOk := true } := by
  have hc : confirm_delete_all confirmKey = false := by
    simp [confirm_delete_all, hkey]
  rw [mainFlow]
  simp [hda, hc]

/-- C9, witness: a concrete bulk-delete run whose confirmation receives
`n`: the outcome records no scan, no entries, no dispatches, clean exit. -/
theorem C9_witness :
    mainFlow
        { directory := ['.'], exclude_hidden := false, target := ['n', 'm'],
          full := false, in_gb := false, exclude_paths := none, sort := none,
          delete_all := true }
        (KeyCode.char 'n') ['/', 'h'] ['/', 'd'] (.node ['d'] []) 0
        (fun _ => none) (fun _ => none) (fun _ => true) 0 [KeyCode.char 'q']
      = { scanEntered := false, modulesAfter := [], dispatches := [],
          exitOk := true } :=
  C9_confirmation_abort _ _ _ _ _ _ _ _ _ _ _ rfl (by decide)

end RSkill
